import Mathlib

/-!
Verification development for the factor-v2 world-indexing core
(`src/common/world/src/tree.rs` and `src/common/world/src/ico.rs`).

The Rust code is shallowly embedded:
* `u64`/`u32` values become `ℕ`, with wrapping operations written out as
  `% 2^64` / `% 2^32` exactly where the machine arithmetic can wrap;
* `f64` values become `ℝ` (exact real arithmetic; rounding is idealised away),
  with `as u8` / `as u32` casts modelled as saturating truncation;
* `Result`/`Option` become `Except`/`Option`.

Index values are modelled at the raw-integer level: a `QuadtreeIndex` /
`OctreeIndex` is its packed `u64` payload, and the `WorldRegion` /
`RegionHalf` bytes are modelled as the `u8` discriminants the Rust code
feeds to its `from_u8_unchecked` transmutes.
-/

namespace Factor

/-- Bit length of a natural number, computed with 64 steps of structural
fuel.  For every `n < 2^64` this equals the number of bits used by `n`,
so `64 - bitlen64 n` is exactly `u64::leading_zeros`. -/
def bitlenAux : ℕ → ℕ → ℕ
  | 0, _ => 0
  | fuel + 1, n => if n = 0 then 0 else bitlenAux fuel (n / 2) + 1

/-- Bit length of a `u64` value (`64 - leading_zeros`). -/
def bitlen64 (n : ℕ) : ℕ := bitlenAux 64 n

/-- Model of `u64::leading_zeros` for values below `2^64`. -/
def leadingZeros64 (n : ℕ) : ℕ := 64 - bitlen64 n

/-- `HorizontalSubdivision` from `tree.rs` (`repr(u8)`:
`NorthSouth = 0`, `Center = 1`, `West = 2`, `East = 3`). -/
inductive HorizontalSubdivision where
  | northSouth
  | center
  | west
  | east
deriving DecidableEq, Repr

/-- The `repr(u8)` discriminant of a `HorizontalSubdivision`. -/
def HorizontalSubdivision.toNat : HorizontalSubdivision → ℕ
  | .northSouth => 0
  | .center => 1
  | .west => 2
  | .east => 3

/-- Model of `HorizontalSubdivision::from_u8_unchecked`; the Rust safety
contract requires the argument to be in `0..4`, where the two agree. -/
def HorizontalSubdivision.ofCode (n : ℕ) : HorizontalSubdivision :=
  match n with
  | 0 => .northSouth
  | 1 => .center
  | 2 => .west
  | _ => .east

/-- `VerticalSubdivision` from `tree.rs` (`repr(u8)`:
`Lower = 0b000`, `Upper = 0b100`). -/
inductive VerticalSubdivision where
  | lower
  | upper
deriving DecidableEq, Repr

/-- The `repr(u8)` discriminant of a `VerticalSubdivision`. -/
def VerticalSubdivision.toNat : VerticalSubdivision → ℕ
  | .lower => 0
  | .upper => 4

/-- Model of `VerticalSubdivision::from_u8_unchecked`; the Rust safety
contract requires the argument to be `0` or `4`, where the two agree. -/
def VerticalSubdivision.ofCode (n : ℕ) : VerticalSubdivision :=
  match n with
  | 0 => .lower
  | _ => .upper

/-- `HorizontalSubdivision::subdivide` (the fixed-point variant, `u32`
fractions scaled by `2^29`).  `u32` shifts, the addition `n2w + n2e` and
the subtraction `ONE - (n2w << 1)` are modelled with their release-mode
wrapping semantics (`% 2^32`); `HALF = 1 << 28`, `ONE = 1 << 29`,
`MASK = ONE - 1`. -/
def subdivide (n2w n2e : ℕ) : HorizontalSubdivision × ℕ × ℕ :=
  if n2w > 2 ^ 28 then
    (.west, ((n2w <<< 1) % 2 ^ 32) &&& (2 ^ 29 - 1), (n2e <<< 1) % 2 ^ 32)
  else if n2e > 2 ^ 28 then
    (.east, (n2w <<< 1) % 2 ^ 32, ((n2e <<< 1) % 2 ^ 32) &&& (2 ^ 29 - 1))
  else if (n2w + n2e) % 2 ^ 32 ≥ 2 ^ 28 then
    (.center, (2 ^ 29 + 2 ^ 32 - (n2w <<< 1) % 2 ^ 32) % 2 ^ 32,
      (2 ^ 29 + 2 ^ 32 - (n2e <<< 1) % 2 ^ 32) % 2 ^ 32)
  else
    (.northSouth, (n2w <<< 1) % 2 ^ 32, (n2e <<< 1) % 2 ^ 32)

/-- `u64::checked_shl`: `None` iff the shift amount is `≥ 64`; otherwise
the value is shifted with the high bits silently discarded. -/
def checkedShl64 (x n : ℕ) : Option ℕ :=
  if 64 ≤ n then none else some ((x <<< n) % 2 ^ 64)

/-- The `MaxOctreeDepth` error type. -/
inductive MaxOctreeDepth where
  | mk
deriving DecidableEq, Repr

/-- The `MaxQuadtreeDepth` error type. -/
inductive MaxQuadtreeDepth where
  | mk
deriving DecidableEq, Repr

/-- `OctreeIndex::from_region` / `QuadtreeIndex::from_region` (both have
the same body): `((region as u64) << 1) | triangle as u64 | 0x20`, with
`r` and `t` the `u8` discriminants of the region and half. -/
def fromRegion (r t : ℕ) : ℕ := (r <<< 1) ||| t ||| 0x20

/-- `QuadtreeIndex::depth`: `(58 - leading_zeros) / 2`.  (`ℕ` truncated
subtraction agrees with the `u32` subtraction for every raw value
`≥ 0x20`, i.e. for every constructible index.) -/
def quadDepth (i : ℕ) : ℕ := (58 - leadingZeros64 i) / 2

/-- `OctreeIndex::depth`: `(58 - leading_zeros) / 3`. -/
def octDepth (i : ℕ) : ℕ := (58 - leadingZeros64 i) / 3

/-- `QuadtreeIndex::children`: the range is modelled as its
`(start, end)` pair. -/
def quadChildren (i : ℕ) : Except MaxQuadtreeDepth (ℕ × ℕ) :=
  match checkedShl64 i 2 with
  | none => .error .mk
  | some first => .ok (first, first + 4)

/-- `QuadtreeIndex::child`. -/
def quadChild (i : ℕ) (h : HorizontalSubdivision) : Except MaxQuadtreeDepth ℕ :=
  match checkedShl64 i 2 with
  | none => .error .mk
  | some first => .ok (first ||| h.toNat)

/-- `QuadtreeIndex::parent`. -/
def quadParent (i : ℕ) : Option (ℕ × HorizontalSubdivision) :=
  if i < 0x80 then none
  else some (i >>> 2, .ofCode (i &&& 3))

/-- `QuadtreeIndex::region`, modelled at the byte level: the result is
the pair of `u8` values the Rust code passes to
`WorldRegion::from_u8_unchecked` and `RegionHalf::from_u8_unchecked`
(`raw as u8 >> 1` and `raw as u8 & 1`). -/
def quadRegion (i : ℕ) : ℕ × ℕ :=
  let shift := 58 - leadingZeros64 i
  let raw := i >>> shift
  ((raw % 2 ^ 8) >>> 1, (raw % 2 ^ 8) &&& 1)

/-- `OctreeIndex::children`. -/
def octChildren (i : ℕ) : Except MaxOctreeDepth (ℕ × ℕ) :=
  match checkedShl64 i 3 with
  | none => .error .mk
  | some first => .ok (first, first + 8)

/-- `OctreeIndex::child`. -/
def octChild (i : ℕ) (h : HorizontalSubdivision) (v : VerticalSubdivision) :
    Except MaxOctreeDepth ℕ :=
  match checkedShl64 i 3 with
  | none => .error .mk
  | some first => .ok (first ||| h.toNat ||| v.toNat)

/-- `OctreeIndex::parent`. -/
def octParent (i : ℕ) : Option (ℕ × HorizontalSubdivision × VerticalSubdivision) :=
  if i < 0x80 then none
  else some (i >>> 3, .ofCode (i &&& 3), .ofCode (i &&& 4))

/-- `OctreeIndex::region` (same body as `QuadtreeIndex::region`),
modelled at the byte level like `quadRegion`. -/
def octRegion (i : ℕ) : ℕ × ℕ :=
  let shift := 58 - leadingZeros64 i
  let raw := i >>> shift
  ((raw % 2 ^ 8) >>> 1, (raw % 2 ^ 8) &&& 1)

/-- The vertical choice taken by one iteration of `OctreeIndex::hash`:
`Upper` iff the fixed-point altitude exceeds `HALF = 1 << 18`. -/
def octVertChoice (a : ℕ) : VerticalSubdivision :=
  if a > 2 ^ 18 then .upper else .lower

/-- The altitude update of one iteration of `OctreeIndex::hash`:
`a = (a << 1) & MASK` with `MASK = (HALF << 1) - 1 = 2^19 - 1`, on `u32`
arithmetic. -/
def octVertNext (a : ℕ) : ℕ := ((a <<< 1) % 2 ^ 32) &&& (2 ^ 19 - 1)

/-- The loop of `QuadtreeIndex::hash`, specialised to a visitor that
always returns `Continue`, with an explicit iteration budget `fuel`.
`some i` is the loop's own exit (`return (index, None)`, taken when
`child` errors); `none` means the budget ran out with the loop still
running.  State: `(index, n2w, n2e)`. -/
def quadHashLoop : ℕ → ℕ × ℕ × ℕ → Option ℕ
  | 0, _ => none
  | fuel + 1, (i, n2w, n2e) =>
    match subdivide n2w n2e with
    | (h, w', e') =>
      match quadChild i h with
      | .error _ => some i
      | .ok j => quadHashLoop fuel (j, w', e')

/-- The loop of `OctreeIndex::hash`, specialised to a visitor that
always returns `Continue`, with an explicit iteration budget.
State: `(index, n2w, n2e, altitude)`. -/
def octHashLoop : ℕ → ℕ × ℕ × ℕ × ℕ → Option ℕ
  | 0, _ => none
  | fuel + 1, (i, n2w, n2e, a) =>
    match subdivide n2w n2e with
    | (h, w', e') =>
      match octChild i h (octVertChoice a) with
      | .error _ => some i
      | .ok j => octHashLoop fuel (j, w', e', octVertNext a)

/-- One `QuadtreeIndex::child` step, as the raw value it produces
(`child` never actually errors, see `hash_loop_never_exits`). -/
def quadStep (i : ℕ) (h : HorizontalSubdivision) : ℕ :=
  ((i <<< 2) % 2 ^ 64) ||| h.toNat

/-- One `OctreeIndex::child` step, as the raw value it produces. -/
def octStep (i : ℕ) (h : HorizontalSubdivision) (v : VerticalSubdivision) : ℕ :=
  ((i <<< 3) % 2 ^ 64) ||| h.toNat ||| v.toNat

/-- The quadtree index reached from the root `(r, t)` by the given
sequence of subdivision choices. -/
def buildQuad (r t : ℕ) (path : List HorizontalSubdivision) : ℕ :=
  path.foldl quadStep (fromRegion r t)

/-- The octree index reached from the root `(r, t)` by the given
sequence of subdivision choices. -/
def buildOct (r t : ℕ) (path : List (HorizontalSubdivision × VerticalSubdivision)) : ℕ :=
  path.foldl (fun i hv => octStep i hv.1 hv.2) (fromRegion r t)

/-- A raw value is a valid quadtree index if it is reachable from one of
the 20 roots by at most 29 subdivision steps (beyond 29, the packing
overflows and the Rust representation invariant is already broken). -/
def ValidQuad (i : ℕ) : Prop :=
  ∃ r t path, r < 10 ∧ t < 2 ∧ path.length ≤ 29 ∧ i = buildQuad r t path

/-- A raw value is a valid octree index if it is reachable from one of
the 20 roots by at most 19 subdivision steps. -/
def ValidOct (i : ℕ) : Prop :=
  ∃ r t path, r < 10 ∧ t < 2 ∧ path.length ≤ 19 ∧ i = buildOct r t path

/-! ### Arithmetic helpers -/

theorem or_two_pow_mul_add : ∀ (k a c : ℕ), c < 2 ^ k → 2 ^ k * a ||| c = 2 ^ k * a + c := by
  intro k
  induction k with
  | zero =>
    intro a c hc
    have hc0 : c = 0 := by omega
    subst hc0
    simp
  | succ k ih =>
    intro a c hc
    have hP : 2 ^ (k + 1) * a = 2 * (2 ^ k * a) := by ring
    have hpow : (2 : ℕ) ^ (k + 1) = 2 * 2 ^ k := by ring
    have h1 : (2 ^ (k + 1) * a ||| c) / 2 = 2 ^ k * a + c / 2 := by
      rw [Nat.or_div_two, hP]
      have h4 : 2 * (2 ^ k * a) / 2 = 2 ^ k * a := by omega
      rw [h4, ih a (c / 2) (by omega)]
    have h2 := @Nat.or_mod_two_eq_one (2 ^ (k + 1) * a) c
    have h3 : 2 ^ (k + 1) * a % 2 = 0 := by rw [hP]; omega
    omega

theorem quadChild_ok (i : ℕ) (h : HorizontalSubdivision) :
    quadChild i h = .ok ((i <<< 2) % 2 ^ 64 ||| h.toNat) := rfl

theorem octChild_ok (i : ℕ) (h : HorizontalSubdivision) (v : VerticalSubdivision) :
    octChild i h v = .ok ((i <<< 3) % 2 ^ 64 ||| h.toNat ||| v.toNat) := rfl

theorem fromRegion_eq {r t : ℕ} (hr : r < 16) (ht : t < 2) :
    fromRegion r t = 32 + 2 * r + t := by
  have e1 : r <<< 1 = 2 ^ 1 * r := by rw [Nat.shiftLeft_eq]; ring
  have e2 : (0x20 : ℕ) = 2 ^ 5 * 1 := by norm_num
  simp only [fromRegion, e1, or_two_pow_mul_add 1 r t (by omega), e2]
  rw [Nat.or_comm, or_two_pow_mul_add 5 1 _ (by omega)]
  omega

/-! ### Claims C2 and C3: the max-depth error is unreachable

`u64::checked_shl` returns `None` only when the shift amount is `≥ 64`;
the code shifts by the constants 2 and 3, so `children()` and `child()`
can never return `Err(Max…Depth)` and the `hash` loops can never take
their max-depth exit. -/

/-- Claim C2 (code bug): at the maximum depth (29 quadtree / 19 octree)
`children()` does NOT return the `MaxDepth` error — `checked_shl` by a
constant `< 64` always succeeds.  At the all-`NorthSouth` max-depth
indices (`2^63` and `2^62`) it returns `Ok` with the sentinel bits
shifted out; the resulting range even starts at 0, violating the
`NonZero` representation invariant. -/
theorem children_at_max_depth :
    quadChildren (buildQuad 0 0 (List.replicate 29 .northSouth)) = .ok (0, 4) ∧
    quadDepth (buildQuad 0 0 (List.replicate 29 .northSouth)) = 29 ∧
    octChildren (buildOct 0 0 (List.replicate 19 (.northSouth, .lower))) = .ok (0, 8) ∧
    octDepth (buildOct 0 0 (List.replicate 19 (.northSouth, .lower))) = 19 :=
  ⟨rfl, by decide, rfl, by decide⟩

/-- Claim C3 (code bug): with a visitor that always continues, the
`hash` loops never terminate.  The only non-`Break` exit of the loop is
the `Err` branch of `child`, which is unreachable, so for every
iteration budget the loop is still running (`none`), instead of
stopping after exactly 29 (resp. 19) subdivision steps. -/
theorem hash_loop_never_exits :
    (∀ (fuel : ℕ) (st : ℕ × ℕ × ℕ), quadHashLoop fuel st = none) ∧
    (∀ (fuel : ℕ) (st : ℕ × ℕ × ℕ × ℕ), octHashLoop fuel st = none) := by
  constructor
  · intro fuel
    induction fuel with
    | zero => intro _; rfl
    | succ fuel ih =>
      intro st
      obtain ⟨i, w, e⟩ := st
      rcases hs : subdivide w e with ⟨h, w', e'⟩
      simp only [quadHashLoop, hs, quadChild_ok]
      exact ih _
  · intro fuel
    induction fuel with
    | zero => intro _; rfl
    | succ fuel ih =>
      intro st
      obtain ⟨i, w, e, a⟩ := st
      rcases hs : subdivide w e with ⟨h, w', e'⟩
      simp only [octHashLoop, hs, octChild_ok]
      exact ih _

/-! ### Claims C5 and C6: the fixed-point subdivider -/

/-- Claim C5: under the precondition `n2w + n2e ≤ 2^29`, the fixed-point
subdivider returns `NorthSouth` iff `n2w + n2e < 2^28`; an input on a
`0.5` boundary (`n2w = 2^28`, `n2e = 2^28`, or `n2w + n2e = 2^28`)
never resolves to `NorthSouth`. -/
theorem subdivide_tiebreak (n2w n2e : ℕ) (hsum : n2w + n2e ≤ 2 ^ 29) :
    ((subdivide n2w n2e).1 = .northSouth ↔ n2w + n2e < 2 ^ 28) ∧
    ((n2w = 2 ^ 28 ∨ n2e = 2 ^ 28 ∨ n2w + n2e = 2 ^ 28) →
      (subdivide n2w n2e).1 ≠ .northSouth) := by
  unfold subdivide
  split_ifs with h1 h2 h3 <;> simp <;> omega

/-- Witness for C5 at the boundary input `(2^28, 0)`. -/
theorem subdivide_tiebreak_witness :
    2 ^ 28 + 0 ≤ 2 ^ 29 ∧ (subdivide (2 ^ 28) 0).1 ≠ .northSouth :=
  ⟨by norm_num, (subdivide_tiebreak (2 ^ 28) 0 (by norm_num)).2 (Or.inl rfl)⟩

/-- Claim C6: the fixed-point subdivider preserves its precondition:
if `n2w + n2e ≤ 2^29` then both outputs lie in `[0, 2^29]` and their sum
is again `≤ 2^29`; the outputs are the inputs doubled, complemented
(`2^29 - 2·x`) for the `Center` child and reduced `mod 2^29` otherwise. -/
theorem subdivide_preserves_norm (n2w n2e : ℕ) (hsum : n2w + n2e ≤ 2 ^ 29) :
    (subdivide n2w n2e).2.1 ≤ 2 ^ 29 ∧ (subdivide n2w n2e).2.2 ≤ 2 ^ 29 ∧
    (subdivide n2w n2e).2.1 + (subdivide n2w n2e).2.2 ≤ 2 ^ 29 ∧
    ((subdivide n2w n2e).1 = .center →
      (subdivide n2w n2e).2.1 = 2 ^ 29 - 2 * n2w ∧
      (subdivide n2w n2e).2.2 = 2 ^ 29 - 2 * n2e) ∧
    ((subdivide n2w n2e).1 ≠ .center →
      (subdivide n2w n2e).2.1 = 2 * n2w % 2 ^ 29 ∧
      (subdivide n2w n2e).2.2 = 2 * n2e % 2 ^ 29) := by
  have hw : n2w <<< 1 = 2 * n2w := by rw [Nat.shiftLeft_eq]; ring
  have he : n2e <<< 1 = 2 * n2e := by rw [Nat.shiftLeft_eq]; ring
  unfold subdivide
  rw [hw, he, Nat.and_pow_two_sub_one_eq_mod, Nat.and_pow_two_sub_one_eq_mod]
  split_ifs with h1 h2 h3 <;> refine ⟨?_, ?_, ?_, ?_, ?_⟩ <;> simp <;> omega

/-- Witness for C6 at the input `(2^27, 2^27)` (a `Center` case whose
rescaled outputs sit exactly at the normalization bound). -/
theorem subdivide_preserves_norm_witness :
    2 ^ 27 + 2 ^ 27 ≤ 2 ^ 29 ∧
    (subdivide (2 ^ 27) (2 ^ 27)).2.1 + (subdivide (2 ^ 27) (2 ^ 27)).2.2 ≤ 2 ^ 29 :=
  ⟨by norm_num, (subdivide_preserves_norm (2 ^ 27) (2 ^ 27) (by norm_num)).2.2.1⟩

/-! ### Claim C1: `region()` does not strip the sentinel bit

For every index reachable from `from_region(r, t)`, `region()` shifts
the raw value so that exactly the top six bits remain: the sentinel bit
`0x20` plus the five payload bits, i.e. the byte `0x20 | r << 1 | t`.
It then hands `raw >> 1 = 16 + r` to `WorldRegion::from_u8_unchecked`,
whose safety contract requires an argument in `0..10`.  The half bit is
recovered correctly, the region byte is off by 16. -/

/-- Claim C1 (code bug): `region()` returns the byte `16 + r` (an
invalid `WorldRegion` discriminant), not `r`, at a root and at
descendants of both index types. -/
theorem region_sentinel_not_stripped :
    quadRegion (fromRegion 0 0) = (16, 0) ∧
    quadRegion (buildQuad 3 1 [.east, .northSouth]) = (19, 1) ∧
    octRegion (fromRegion 0 0) = (16, 0) ∧
    octRegion (buildOct 9 1 [(.center, .upper)]) = (25, 1) := by decide

/-! ### Bit-length and depth characterization -/

theorem bitlenAux_zero (fuel : ℕ) : bitlenAux fuel 0 = 0 := by
  cases fuel <;> simp [bitlenAux]

theorem bitlenAux_spec : ∀ (fuel n k : ℕ), n < 2 ^ fuel → 2 ^ k ≤ n → n < 2 ^ (k + 1) →
    bitlenAux fuel n = k + 1 := by
  intro fuel
  induction fuel with
  | zero =>
    intro n k h1 h2 h3
    have hk1 : (1 : ℕ) ≤ 2 ^ k := Nat.one_le_two_pow
    simp at h1
    omega
  | succ fuel ih =>
    intro n k h1 h2 h3
    have hk1 : (1 : ℕ) ≤ 2 ^ k := Nat.one_le_two_pow
    have hn : ¬n = 0 := by omega
    show (if n = 0 then 0 else bitlenAux fuel (n / 2) + 1) = k + 1
    rw [if_neg hn]
    cases k with
    | zero =>
      norm_num at h2 h3
      have hn1 : n = 1 := by omega
      subst hn1
      norm_num [bitlenAux_zero]
    | succ k' =>
      have e1 : (2 : ℕ) ^ (fuel + 1) = 2 * 2 ^ fuel := by ring
      have e2 : (2 : ℕ) ^ (k' + 1) = 2 * 2 ^ k' := by ring
      have e3 : (2 : ℕ) ^ (k' + 1 + 1) = 2 * 2 ^ (k' + 1) := by ring
      have hih := ih (n / 2) k' (by omega) (by omega) (by omega)
      omega

theorem bitlen64_spec {n k : ℕ} (h2 : 2 ^ k ≤ n) (h3 : n < 2 ^ (k + 1)) (hk : k < 64) :
    bitlen64 n = k + 1 := by
  refine bitlenAux_spec 64 n k ?_ h2 h3
  calc n < 2 ^ (k + 1) := h3
    _ ≤ 2 ^ 64 := Nat.pow_le_pow_right (by norm_num) (by omega)

theorem quadDepth_eq {i d : ℕ} (h1 : 2 ^ (5 + 2 * d) ≤ i) (h2 : i < 2 ^ (6 + 2 * d))
    (hd : d ≤ 29) : quadDepth i = d := by
  have e : 6 + 2 * d = 5 + 2 * d + 1 := by omega
  rw [e] at h2
  have hb : bitlen64 i = 5 + 2 * d + 1 := bitlen64_spec h1 h2 (by omega)
  unfold quadDepth leadingZeros64
  rw [hb]
  omega

theorem octDepth_eq {i d : ℕ} (h1 : 2 ^ (5 + 3 * d) ≤ i) (h2 : i < 2 ^ (6 + 3 * d))
    (hd : d ≤ 19) : octDepth i = d := by
  have e : 6 + 3 * d = 5 + 3 * d + 1 := by omega
  rw [e] at h2
  have hb : bitlen64 i = 5 + 3 * d + 1 := bitlen64_spec h1 h2 (by omega)
  unfold octDepth leadingZeros64
  rw [hb]
  omega

theorem quad_pow_low (d : ℕ) : (32 : ℕ) * 4 ^ d = 2 ^ (5 + 2 * d) := by
  rw [pow_add, pow_mul]
  norm_num

theorem quad_pow_high (d : ℕ) : (52 : ℕ) * 4 ^ d ≤ 2 ^ (6 + 2 * d) := by
  rw [pow_add, pow_mul]
  norm_num

theorem oct_pow_low (d : ℕ) : (32 : ℕ) * 8 ^ d = 2 ^ (5 + 3 * d) := by
  rw [pow_add, pow_mul]
  norm_num

theorem oct_pow_high (d : ℕ) : (52 : ℕ) * 8 ^ d ≤ 2 ^ (6 + 3 * d) := by
  rw [pow_add, pow_mul]
  norm_num

/-! ### Subdivision-code arithmetic -/

theorem hs_toNat_lt (h : HorizontalSubdivision) : h.toNat < 4 := by
  cases h <;> simp [HorizontalSubdivision.toNat]

theorem vs_toNat_cases (v : VerticalSubdivision) : v.toNat = 0 ∨ v.toNat = 4 := by
  cases v <;> simp [VerticalSubdivision.toNat]

theorem hs_ofCode_toNat (h : HorizontalSubdivision) :
    HorizontalSubdivision.ofCode h.toNat = h := by
  cases h <;> rfl

theorem vs_ofCode_toNat (v : VerticalSubdivision) :
    VerticalSubdivision.ofCode v.toNat = v := by
  cases v <;> rfl

theorem and_three (x : ℕ) : x &&& 3 = x % 4 := by
  have e : (3 : ℕ) = 2 ^ 2 - 1 := by norm_num
  rw [e, Nat.and_pow_two_sub_one_eq_mod]

theorem and_four_eq (x : ℕ) : x &&& 4 = 4 * (x / 4 % 2) := by
  have h1 : (x &&& 4) % 2 = 0 := by
    have h := @Nat.and_mod_two_eq_one x 4
    omega
  have h2 : (x &&& 4) / 2 = x / 2 &&& 2 := by
    have h := @Nat.and_div_two x 4
    norm_num at h
    exact h
  have h3 : (x / 2 &&& 2) % 2 = 0 := by
    have h := @Nat.and_mod_two_eq_one (x / 2) 2
    omega
  have h4 : (x / 2 &&& 2) / 2 = x / 2 / 2 % 2 := by
    have h := @Nat.and_div_two (x / 2) 2
    norm_num at h
    exact h
  omega

/-! ### Evaluation of child construction and bounds propagation -/

theorem quadStep_eval {i d : ℕ} (h : HorizontalSubdivision)
    (h1 : 32 * 4 ^ d ≤ i) (h2 : i < 52 * 4 ^ d) (hd : d < 29) :
    quadStep i h = 4 * i + h.toNat ∧
    32 * 4 ^ (d + 1) ≤ 4 * i + h.toNat ∧ 4 * i + h.toNat < 52 * 4 ^ (d + 1) := by
  have hdle : (4 : ℕ) ^ d ≤ 4 ^ 28 := Nat.pow_le_pow_right (by norm_num) (by omega)
  have hi : i < 2 ^ 62 := by
    calc i < 52 * 4 ^ d := h2
      _ ≤ 52 * 4 ^ 28 := Nat.mul_le_mul_left _ hdle
      _ < 2 ^ 62 := by norm_num
  have ht := hs_toNat_lt h
  have e1 : i <<< 2 = 2 ^ 2 * i := by rw [Nat.shiftLeft_eq]; ring
  have e2 : 2 ^ 2 * i % 2 ^ 64 = 2 ^ 2 * i := Nat.mod_eq_of_lt (by omega)
  have e3 := or_two_pow_mul_add 2 i h.toNat (by omega)
  have e4 : (4 : ℕ) ^ (d + 1) = 4 * 4 ^ d := by ring
  unfold quadStep
  rw [e1, e2, e3]
  refine ⟨by omega, by omega, by omega⟩

theorem octStep_eval {i d : ℕ} (h : HorizontalSubdivision) (v : VerticalSubdivision)
    (h1 : 32 * 8 ^ d ≤ i) (h2 : i < 52 * 8 ^ d) (hd : d < 19) :
    octStep i h v = 8 * i + (h.toNat + v.toNat) ∧
    32 * 8 ^ (d + 1) ≤ 8 * i + (h.toNat + v.toNat) ∧
    8 * i + (h.toNat + v.toNat) < 52 * 8 ^ (d + 1) := by
  have hdle : (8 : ℕ) ^ d ≤ 8 ^ 18 := Nat.pow_le_pow_right (by norm_num) (by omega)
  have hi : i < 2 ^ 61 := by
    calc i < 52 * 8 ^ d := h2
      _ ≤ 52 * 8 ^ 18 := Nat.mul_le_mul_left _ hdle
      _ < 2 ^ 61 := by norm_num
  have ht := hs_toNat_lt h
  have hv := vs_toNat_cases v
  have e1 : i <<< 3 = 2 ^ 3 * i := by rw [Nat.shiftLeft_eq]; ring
  have e2 : 2 ^ 3 * i % 2 ^ 64 = 2 ^ 3 * i := Nat.mod_eq_of_lt (by omega)
  have e4 : h.toNat ||| v.toNat = h.toNat + v.toNat := by cases h <;> cases v <;> rfl
  have e5 : (8 : ℕ) ^ (d + 1) = 8 * 8 ^ d := by ring
  unfold octStep
  rw [e1, e2, Nat.or_assoc, e4, or_two_pow_mul_add 3 i _ (by omega)]
  refine ⟨by omega, by omega, by omega⟩

theorem quadFold_bounds : ∀ (path : List HorizontalSubdivision) (i d : ℕ),
    32 * 4 ^ d ≤ i → i < 52 * 4 ^ d → d + path.length ≤ 29 →
    32 * 4 ^ (d + path.length) ≤ path.foldl quadStep i ∧
    path.foldl quadStep i < 52 * 4 ^ (d + path.length) := by
  intro path
  induction path with
  | nil =>
    intro i d h1 h2 _
    simpa using ⟨h1, h2⟩
  | cons hd tl ih =>
    intro i d h1 h2 h3
    simp only [List.foldl_cons, List.length_cons] at *
    have hs := quadStep_eval hd h1 h2 (by omega)
    have hrec := ih (quadStep i hd) (d + 1) (by rw [hs.1]; exact hs.2.1)
      (by rw [hs.1]; exact hs.2.2) (by omega)
    have e : d + 1 + tl.length = d + (tl.length + 1) := by omega
    rw [e] at hrec
    exact hrec

theorem octFold_bounds : ∀ (path : List (HorizontalSubdivision × VerticalSubdivision)) (i d : ℕ),
    32 * 8 ^ d ≤ i → i < 52 * 8 ^ d → d + path.length ≤ 19 →
    32 * 8 ^ (d + path.length) ≤ path.foldl (fun i hv => octStep i hv.1 hv.2) i ∧
    path.foldl (fun i hv => octStep i hv.1 hv.2) i < 52 * 8 ^ (d + path.length) := by
  intro path
  induction path with
  | nil =>
    intro i d h1 h2 _
    simpa using ⟨h1, h2⟩
  | cons hd tl ih =>
    intro i d h1 h2 h3
    simp only [List.foldl_cons, List.length_cons] at *
    have hs := octStep_eval hd.1 hd.2 h1 h2 (by omega)
    have hrec := ih (octStep i hd.1 hd.2) (d + 1) (by rw [hs.1]; exact hs.2.1)
      (by rw [hs.1]; exact hs.2.2) (by omega)
    have e : d + 1 + tl.length = d + (tl.length + 1) := by omega
    rw [e] at hrec
    exact hrec

theorem validQuad_bounds {i : ℕ} (h : ValidQuad i) :
    ∃ d, d ≤ 29 ∧ 32 * 4 ^ d ≤ i ∧ i < 52 * 4 ^ d ∧ quadDepth i = d := by
  obtain ⟨r, t, path, hr, ht, hl, rfl⟩ := h
  have hroot1 : 32 * 4 ^ 0 ≤ fromRegion r t := by
    rw [fromRegion_eq (by omega) ht]; omega
  have hroot2 : fromRegion r t < 52 * 4 ^ 0 := by
    rw [fromRegion_eq (by omega) ht]; omega
  have hb := quadFold_bounds path (fromRegion r t) 0 hroot1 hroot2 (by omega)
  simp only [Nat.zero_add] at hb
  refine ⟨path.length, hl, hb.1, hb.2, ?_⟩
  exact quadDepth_eq (by rw [← quad_pow_low]; exact hb.1)
    (lt_of_lt_of_le hb.2 (quad_pow_high _)) hl

theorem validOct_bounds {i : ℕ} (h : ValidOct i) :
    ∃ d, d ≤ 19 ∧ 32 * 8 ^ d ≤ i ∧ i < 52 * 8 ^ d ∧ octDepth i = d := by
  obtain ⟨r, t, path, hr, ht, hl, rfl⟩ := h
  have hroot1 : 32 * 8 ^ 0 ≤ fromRegion r t := by
    rw [fromRegion_eq (by omega) ht]; omega
  have hroot2 : fromRegion r t < 52 * 8 ^ 0 := by
    rw [fromRegion_eq (by omega) ht]; omega
  have hb := octFold_bounds path (fromRegion r t) 0 hroot1 hroot2 (by omega)
  simp only [Nat.zero_add] at hb
  refine ⟨path.length, hl, hb.1, hb.2, ?_⟩
  exact octDepth_eq (by rw [← oct_pow_low]; exact hb.1)
    (lt_of_lt_of_le hb.2 (oct_pow_high _)) hl

theorem quadChildren_eval {i : ℕ} (hi : i < 2 ^ 62) :
    quadChildren i = .ok (4 * i, 4 * i + 4) := by
  have e : (i <<< 2) % 2 ^ 64 = 4 * i := by
    rw [Nat.shiftLeft_eq]
    have e2 : i * 2 ^ 2 = 4 * i := by ring
    rw [e2]
    exact Nat.mod_eq_of_lt (by omega)
  unfold quadChildren checkedShl64
  rw [if_neg (by norm_num), e]

theorem quadChild_eval {i : ℕ} (hi : i < 2 ^ 62) (h : HorizontalSubdivision) :
    quadChild i h = .ok (4 * i + h.toNat) := by
  have ht := hs_toNat_lt h
  have e : (i <<< 2) % 2 ^ 64 = 2 ^ 2 * i := by
    rw [Nat.shiftLeft_eq]
    have e2 : i * 2 ^ 2 = 2 ^ 2 * i := by ring
    rw [e2]
    exact Nat.mod_eq_of_lt (by omega)
  rw [quadChild_ok, e, or_two_pow_mul_add 2 i _ (by omega)]
  congr 1

theorem octChildren_eval {i : ℕ} (hi : i < 2 ^ 61) :
    octChildren i = .ok (8 * i, 8 * i + 8) := by
  have e : (i <<< 3) % 2 ^ 64 = 8 * i := by
    rw [Nat.shiftLeft_eq]
    have e2 : i * 2 ^ 3 = 8 * i := by ring
    rw [e2]
    exact Nat.mod_eq_of_lt (by omega)
  unfold octChildren checkedShl64
  rw [if_neg (by norm_num), e]

theorem octChild_eval {i : ℕ} (hi : i < 2 ^ 61) (h : HorizontalSubdivision)
    (v : VerticalSubdivision) :
    octChild i h v = .ok (8 * i + (h.toNat + v.toNat)) := by
  have ht := hs_toNat_lt h
  have hv := vs_toNat_cases v
  have e : (i <<< 3) % 2 ^ 64 = 2 ^ 3 * i := by
    rw [Nat.shiftLeft_eq]
    have e2 : i * 2 ^ 3 = 2 ^ 3 * i := by ring
    rw [e2]
    exact Nat.mod_eq_of_lt (by omega)
  have e4 : h.toNat ||| v.toNat = h.toNat + v.toNat := by cases h <;> cases v <;> rfl
  rw [octChild_ok, e, Nat.or_assoc, e4, or_two_pow_mul_add 3 i _ (by omega)]
  congr 1

theorem quadParent_step {i : ℕ} (hi : 32 ≤ i) (h : HorizontalSubdivision) :
    quadParent (4 * i + h.toNat) = some (i, h) := by
  have ht := hs_toNat_lt h
  unfold quadParent
  rw [if_neg (by omega), Nat.shiftRight_eq_div_pow, and_three]
  have e1 : (4 * i + h.toNat) / 2 ^ 2 = i := by omega
  have e2 : (4 * i + h.toNat) % 4 = h.toNat := by omega
  rw [e1, e2, hs_ofCode_toNat]

theorem octParent_step {i : ℕ} (hi : 32 ≤ i) (h : HorizontalSubdivision)
    (v : VerticalSubdivision) :
    octParent (8 * i + (h.toNat + v.toNat)) = some (i, h, v) := by
  have ht := hs_toNat_lt h
  have hv := vs_toNat_cases v
  unfold octParent
  rw [if_neg (by omega), Nat.shiftRight_eq_div_pow, and_three, and_four_eq]
  have e1 : (8 * i + (h.toNat + v.toNat)) / 2 ^ 3 = i := by omega
  have e2 : (8 * i + (h.toNat + v.toNat)) % 4 = h.toNat := by omega
  have e3 : 4 * ((8 * i + (h.toNat + v.toNat)) / 4 % 2) = v.toNat := by omega
  rw [e1, e2, e3, hs_ofCode_toNat, vs_ofCode_toNat]

/-! ### Claim C4: parent/child algebra -/

/-- Claim C4: for every valid index strictly below the maximum depth (29
quadtree / 19 octree) and every subdivision choice, `child` followed by
`parent` recovers the original index and the subdivision taken;
`children` is the contiguous range of the 4 (resp. 8) child values,
each of whose `parent` points back at the index; the child's depth is
the parent's depth plus one; and `parent` returns `None` exactly at the
20 root indices (raw values `0x20..0x34`). -/
theorem child_parent_roundtrip :
    (∀ i, ValidQuad i → quadDepth i < 29 →
      quadChildren i = .ok (4 * i, 4 * i + 4) ∧
      (∀ h : HorizontalSubdivision,
        quadChild i h = .ok (4 * i + h.toNat) ∧
        quadParent (4 * i + h.toNat) = some (i, h) ∧
        quadDepth (4 * i + h.toNat) = quadDepth i + 1) ∧
      (∀ k, k < 4 → ∃ p, quadParent (4 * i + k) = some p ∧ p.1 = i)) ∧
    (∀ i, ValidQuad i → (quadParent i = none ↔ 32 ≤ i ∧ i < 52)) ∧
    (∀ i, ValidOct i → octDepth i < 19 →
      octChildren i = .ok (8 * i, 8 * i + 8) ∧
      (∀ (h : HorizontalSubdivision) (v : VerticalSubdivision),
        octChild i h v = .ok (8 * i + (h.toNat + v.toNat)) ∧
        octParent (8 * i + (h.toNat + v.toNat)) = some (i, h, v) ∧
        octDepth (8 * i + (h.toNat + v.toNat)) = octDepth i + 1) ∧
      (∀ k, k < 8 → ∃ p, octParent (8 * i + k) = some p ∧ p.1 = i)) ∧
    (∀ i, ValidOct i → (octParent i = none ↔ 32 ≤ i ∧ i < 52)) := by
  refine ⟨?_, ?_, ?_, ?_⟩
  · intro i hv hdepth
    obtain ⟨d, hd, h1, h2, hdep⟩ := validQuad_bounds hv
    rw [hdep] at hdepth
    have hi62 : i < 2 ^ 62 := by
      calc i < 52 * 4 ^ d := h2
        _ ≤ 52 * 4 ^ 28 := Nat.mul_le_mul_left _ (Nat.pow_le_pow_right (by norm_num) (by omega))
        _ < 2 ^ 62 := by norm_num
    have hone : (1 : ℕ) ≤ 4 ^ d := Nat.one_le_pow _ _ (by norm_num)
    have hi32 : 32 ≤ i := by omega
    refine ⟨quadChildren_eval hi62, ?_, ?_⟩
    · intro h
      have hstep := quadStep_eval h h1 h2 hdepth
      refine ⟨quadChild_eval hi62 h, quadParent_step hi32 h, ?_⟩
      rw [hdep]
      exact quadDepth_eq (by rw [← quad_pow_low]; exact hstep.2.1)
        (lt_of_lt_of_le hstep.2.2 (quad_pow_high _)) (by omega)
    · intro k hk
      refine ⟨(i, .ofCode ((4 * i + k) &&& 3)), ?_, rfl⟩
      unfold quadParent
      rw [if_neg (by omega), Nat.shiftRight_eq_div_pow]
      have e1 : (4 * i + k) / 2 ^ 2 = i := by omega
      rw [e1]
  · intro i hv
    obtain ⟨d, hd, h1, h2, hdep⟩ := validQuad_bounds hv
    unfold quadParent
    by_cases hd0 : d = 0
    · subst hd0
      norm_num at h1 h2
      rw [if_pos (by omega)]
      simp
      omega
    · have hge : (4 : ℕ) ≤ 4 ^ d := by
        calc (4 : ℕ) = 4 ^ 1 := by norm_num
          _ ≤ 4 ^ d := Nat.pow_le_pow_right (by norm_num) (by omega)
      rw [if_neg (by omega)]
      simp
      omega
  · intro i hv hdepth
    obtain ⟨d, hd, h1, h2, hdep⟩ := validOct_bounds hv
    rw [hdep] at hdepth
    have hi61 : i < 2 ^ 61 := by
      calc i < 52 * 8 ^ d := h2
        _ ≤ 52 * 8 ^ 18 := Nat.mul_le_mul_left _ (Nat.pow_le_pow_right (by norm_num) (by omega))
        _ < 2 ^ 61 := by norm_num
    have hone : (1 : ℕ) ≤ 8 ^ d := Nat.one_le_pow _ _ (by norm_num)
    have hi32 : 32 ≤ i := by omega
    refine ⟨octChildren_eval hi61, ?_, ?_⟩
    · intro h v
      have hstep := octStep_eval h v h1 h2 hdepth
      refine ⟨octChild_eval hi61 h v, octParent_step hi32 h v, ?_⟩
      rw [hdep]
      exact octDepth_eq (by rw [← oct_pow_low]; exact hstep.2.1)
        (lt_of_lt_of_le hstep.2.2 (oct_pow_high _)) (by omega)
    · intro k hk
      refine ⟨(i, .ofCode ((8 * i + k) &&& 3), .ofCode ((8 * i + k) &&& 4)), ?_, rfl⟩
      unfold octParent
      rw [if_neg (by omega), Nat.shiftRight_eq_div_pow]
      have e1 : (8 * i + k) / 2 ^ 3 = i := by omega
      rw [e1]
  · intro i hv
    obtain ⟨d, hd, h1, h2, hdep⟩ := validOct_bounds hv
    unfold octParent
    by_cases hd0 : d = 0
    · subst hd0
      norm_num at h1 h2
      rw [if_pos (by omega)]
      simp
      omega
    · have hge : (8 : ℕ) ≤ 8 ^ d := by
        calc (8 : ℕ) = 8 ^ 1 := by norm_num
          _ ≤ 8 ^ d := Nat.pow_le_pow_right (by norm_num) (by omega)
      rw [if_neg (by omega)]
      simp
      omega

/-- Witness for C4 at the root index `32 = from_region(R0, Pyramid)`
with the `East` (and `Upper`) subdivision. -/
theorem child_parent_roundtrip_witness :
    quadChild 32 .east = .ok 131 ∧ quadParent 131 = some (32, .east) ∧
    quadDepth 131 = 1 ∧ quadParent 32 = none ∧
    octChild 32 .east .upper = .ok 263 ∧ octParent 263 = some (32, .east, .upper) ∧
    octDepth 263 = 1 ∧ octParent 32 = none := by
  have hvq : ValidQuad 32 := ⟨0, 0, [], by norm_num, by norm_num, by norm_num, rfl⟩
  have hvo : ValidOct 32 := ⟨0, 0, [], by norm_num, by norm_num, by norm_num, rfl⟩
  have hq := child_parent_roundtrip.1 32 hvq (by decide)
  have hqr := (child_parent_roundtrip.2.1 32 hvq).mpr (by norm_num)
  have ho := child_parent_roundtrip.2.2.1 32 hvo (by decide)
  have hor := (child_parent_roundtrip.2.2.2 32 hvo).mpr (by norm_num)
  have hq2 := hq.2.1 .east
  have ho2 := ho.2.1 .east .upper
  have hdq : quadDepth 32 = 0 := by decide
  have hdo : octDepth 32 = 0 := by decide
  refine ⟨?_, ?_, ?_, hqr, ?_, ?_, ?_, hor⟩
  · simpa [HorizontalSubdivision.toNat] using hq2.1
  · simpa [HorizontalSubdivision.toNat] using hq2.2.1
  · have := hq2.2.2
    rw [hdq] at this
    simpa [HorizontalSubdivision.toNat] using this
  · simpa [HorizontalSubdivision.toNat, VerticalSubdivision.toNat] using ho2.1
  · simpa [HorizontalSubdivision.toNat, VerticalSubdivision.toNat] using ho2.2.1
  · have := ho2.2.2
    rw [hdo] at this
    simpa [HorizontalSubdivision.toNat, VerticalSubdivision.toNat] using this

/-! ### Real-number layer: the icosahedral projector (`ico.rs`)

`f64` arithmetic is idealised as exact real arithmetic.  `TAU` is the
exact `2 * pi`; `TRANS_LAT` is the literal from the source;
`rem_euclid` and the `as u8` / `as u32` casts are modelled exactly. -/

noncomputable section

/-- `std::f64::consts::TAU`, idealised as the exact `2 * pi`. -/
def TAU : ℝ := 2 * Real.pi

/-- `FRAC_2PI_5 = TAU * 0.2` from `ico.rs`. -/
def FRAC_2PI_5 : ℝ := TAU * 0.2

/-- `FRAC_PI_5 = TAU * 0.1` from `ico.rs`. -/
def FRAC_PI_5 : ℝ := TAU * 0.1

/-- `TRANS_LAT`, the source literal `0.5535743588970453` (`atan(1/PHI)`). -/
def TRANS_LAT : ℝ := 0.5535743588970453

/-- `CENTER_SLOPE = TRANS_LAT * 2.0 / FRAC_PI_5` from `ico.rs`. -/
def CENTER_SLOPE : ℝ := TRANS_LAT * 2 / FRAC_PI_5

/-- `f64::rem_euclid` under the exact-real idealisation:
`a - b * floor(a / b)`, which lies in `[0, b)` whenever `b > 0`. -/
def remEuclid (a b : ℝ) : ℝ := a - b * ⌊a / b⌋

/-- Rust `as u8` cast from `f64`: truncation toward zero, saturating at
`0` and `255` (`NaN` does not exist in the real model). -/
def f64toU8 (x : ℝ) : ℕ := min 255 (⌊x⌋.toNat)

/-- Rust `as u32` cast from `f64`. -/
def f64toU32 (x : ℝ) : ℕ := min (2 ^ 32 - 1) (⌊x⌋.toNat)

/-- `region_offset_raw` from `ico.rs`: the region byte together with the
offset `(x, y)`.  Mutation of `center`/`x`/`y` in the belt branch is
translated into the four explicit outcomes. -/
def regionOffsetRaw (lon lat : ℝ) : ℕ × ℝ × ℝ :=
  let c := Real.cos lat
  if TRANS_LAT < lat then
    (f64toU8 (remEuclid lon TAU / FRAC_2PI_5),
      (remEuclid lon FRAC_2PI_5 - FRAC_PI_5) * c, lat - TRANS_LAT)
  else if lat < -TRANS_LAT then
    (f64toU8 (remEuclid (lon + FRAC_PI_5) TAU / FRAC_2PI_5) + 5,
      (remEuclid (lon + FRAC_PI_5) FRAC_2PI_5 - FRAC_PI_5) * c, lat + TRANS_LAT)
  else
    let center := f64toU8 (remEuclid lon TAU / FRAC_2PI_5)
    let y := lat - TRANS_LAT
    let x := remEuclid (lon + FRAC_2PI_5) FRAC_2PI_5 - FRAC_PI_5
    if 0 < x then
      if y < x * CENTER_SLOPE + -(TRANS_LAT * 2) then
        ((if center = 4 then 5 else center + 6), (x - FRAC_PI_5) * c, y + TRANS_LAT * 2)
      else (center, x * c, y)
    else
      if y < x * -CENTER_SLOPE + -(TRANS_LAT * 2) then
        (center + 5, (x + FRAC_PI_5) * c, y + TRANS_LAT * 2)
      else (center, x * c, y)

/-- `region_raw` from `ico.rs`: the region byte shifted left one bit
with the half bit in the low position. -/
def regionRaw (lon lat : ℝ) : ℕ :=
  if TRANS_LAT < lat then
    f64toU8 (remEuclid lon TAU / FRAC_2PI_5) <<< 1
  else if lat < -TRANS_LAT then
    (f64toU8 (remEuclid (lon + FRAC_PI_5) TAU / FRAC_2PI_5) + 5) <<< 1
  else
    let center := f64toU8 (remEuclid lon TAU / FRAC_2PI_5)
    let x := remEuclid (lon + FRAC_2PI_5) FRAC_2PI_5 - FRAC_PI_5
    let center1 :=
      if 0 < x then
        if lat < x * CENTER_SLOPE + -TRANS_LAT then (if center = 4 then 5 else center + 6)
        else center
      else
        if lat < x * -CENTER_SLOPE + -TRANS_LAT then center + 5 else center
    (center1 <<< 1) ||| 1

end

theorem shl1_shr1 (c : ℕ) : (c <<< 1) >>> 1 = c := by
  rw [Nat.shiftLeft_eq, Nat.shiftRight_eq_div_pow]
  omega

theorem shl1_or1_shr1 (c : ℕ) : ((c <<< 1) ||| 1) >>> 1 = c := by
  have e1 : c <<< 1 = 2 ^ 1 * c := by rw [Nat.shiftLeft_eq]; ring
  rw [e1, or_two_pow_mul_add 1 c 1 (by norm_num), Nat.shiftRight_eq_div_pow]
  omega

/-- Claim C7: the offset-computing projector and the fast classifier
agree on the region for every input, although they arrange the diagonal
boundary test differently (`lat - TRANS_LAT < x*CS - 2*TRANS_LAT`
versus `lat < x*CS - TRANS_LAT`); `f64` is idealised as `ℝ`. -/
theorem region_agreement (lon lat : ℝ) :
    (regionOffsetRaw lon lat).1 = regionRaw lon lat >>> 1 := by
  simp only [regionOffsetRaw, regionRaw]
  split_ifs <;>
    first
      | exact (shl1_shr1 _).symm
      | exact (shl1_or1_shr1 _).symm
      | (exfalso; unfold CENTER_SLOPE at *; linarith)


theorem remEuclid_nonneg (a : ℝ) {b : ℝ} (hb : 0 < b) : 0 ≤ remEuclid a b := by
  have h1 := Int.floor_le (a / b)
  have e : b * (a / b) = a := by field_simp
  have h2 := mul_le_mul_of_nonneg_left h1 (le_of_lt hb)
  rw [e] at h2
  unfold remEuclid
  linarith

theorem remEuclid_lt (a : ℝ) {b : ℝ} (hb : 0 < b) : remEuclid a b < b := by
  have h1 := Int.lt_floor_add_one (a / b)
  have e : b * (a / b) = a := by field_simp
  have h2 := mul_lt_mul_of_pos_left h1 hb
  rw [e] at h2
  have e2 : b * ((⌊a / b⌋ : ℝ) + 1) = b * ⌊a / b⌋ + b := by ring
  rw [e2] at h2
  unfold remEuclid
  linarith

theorem tau_pos : (0 : ℝ) < TAU := by
  unfold TAU
  have := Real.pi_pos
  linarith

theorem frac_2pi_5_pos : (0 : ℝ) < FRAC_2PI_5 := by
  unfold FRAC_2PI_5
  have := tau_pos
  linarith

theorem wedge_cast_le (a : ℝ) : f64toU8 (remEuclid a TAU / FRAC_2PI_5) ≤ 4 := by
  have h0 := remEuclid_nonneg a tau_pos
  have h1 := remEuclid_lt a tau_pos
  have h5 : (5 : ℝ) * FRAC_2PI_5 = TAU := by unfold FRAC_2PI_5; ring
  have hq : remEuclid a TAU / FRAC_2PI_5 < 5 := by
    rw [div_lt_iff₀ frac_2pi_5_pos]
    linarith
  have hfl : ⌊remEuclid a TAU / FRAC_2PI_5⌋ < (5 : ℤ) := by
    apply Int.floor_lt.mpr
    push_cast
    linarith
  unfold f64toU8
  omega

/-- The region byte produced by `region_offset_raw` is always in
`0..10`, so the `WorldRegion::from_u8_unchecked` transmute inside
`region_offset` is sound. -/
theorem regionOffsetRaw_region_le (lon lat : ℝ) : (regionOffsetRaw lon lat).1 ≤ 9 := by
  have hc1 := wedge_cast_le lon
  have hc2 := wedge_cast_le (lon + FRAC_PI_5)
  simp only [regionOffsetRaw]
  split_ifs <;> dsimp only <;> omega


noncomputable section

/-- The root-index computation at the head of `QuadtreeIndex::hash`:
project with `region_offset`, pick `Antiprism` (1) iff
`base.is_south() ^ (off.y < 0.0)`, then `from_region`. -/
def quadHashRoot (lon lat : ℝ) : ℕ :=
  let ro := regionOffsetRaw lon lat
  let half : ℕ := if Xor' (5 ≤ ro.1) (ro.2.2 < 0) then 1 else 0
  fromRegion ro.1 half

/-- The root-index computation at the head of `OctreeIndex::hash`
(textually identical code in the source). -/
def octHashRoot (lon lat : ℝ) : ℕ :=
  let ro := regionOffsetRaw lon lat
  let half : ℕ := if Xor' (5 ≤ ro.1) (ro.2.2 < 0) then 1 else 0
  fromRegion ro.1 half

/-- The initial fixed-point altitude of `OctreeIndex::hash`:
`alt.mul_add(1.0 / 16.0, HALF as f64) as u32` with `HALF = 1 << 18`. -/
def octAltInit (alt : ℝ) : ℕ := f64toU32 (alt * (1 / 16) + 2 ^ 18)

/-- Modelled from the spec claim (C9), which describes the per-level
altitude rescale as "shifting left and masking to 18 bits":
`(a << 1) & (2^18 - 1)`.  The source masks with `(HALF << 1) - 1
= 2^19 - 1` instead. -/
def claimVertNext (a : ℕ) : ℕ := ((a <<< 1) % 2 ^ 32) &&& (2 ^ 18 - 1)

end

/-- Claim C10: the first index visited by `hash` is
`from_region(r, half)` for `r` the projected region, with `half`
chosen by the `is_south XOR (off.y < 0)` rule — equivalently `Pyramid`
exactly when the offset points poleward for the hemisphere — and the
quadtree and octree traversals use the same rule. -/
theorem hash_root_rule (lon lat : ℝ) :
    octHashRoot lon lat = quadHashRoot lon lat ∧
    (quadHashRoot lon lat = fromRegion (regionOffsetRaw lon lat).1 1 ↔
      Xor' (5 ≤ (regionOffsetRaw lon lat).1) ((regionOffsetRaw lon lat).2.2 < 0)) ∧
    (quadHashRoot lon lat = fromRegion (regionOffsetRaw lon lat).1 0 ↔
      (((regionOffsetRaw lon lat).1 < 5 ∧ 0 ≤ (regionOffsetRaw lon lat).2.2) ∨
        (5 ≤ (regionOffsetRaw lon lat).1 ∧ (regionOffsetRaw lon lat).2.2 < 0))) := by
  have hr9 := regionOffsetRaw_region_le lon lat
  have hdef : quadHashRoot lon lat =
      fromRegion (regionOffsetRaw lon lat).1
        (if Xor' (5 ≤ (regionOffsetRaw lon lat).1) ((regionOffsetRaw lon lat).2.2 < 0)
          then 1 else 0) := rfl
  have e0 := fromRegion_eq (r := (regionOffsetRaw lon lat).1) (t := 0) (by omega) (by omega)
  have e1 := fromRegion_eq (r := (regionOffsetRaw lon lat).1) (t := 1) (by omega) (by omega)
  refine ⟨rfl, ?_, ?_⟩
  · by_cases hx : Xor' (5 ≤ (regionOffsetRaw lon lat).1) ((regionOffsetRaw lon lat).2.2 < 0)
    · rw [hdef, if_pos hx]
      simp [hx]
    · rw [hdef, if_neg hx]
      simp [hx]
      omega
  · have hiff : ((regionOffsetRaw lon lat).1 < 5 ∧ 0 ≤ (regionOffsetRaw lon lat).2.2) ∨
        (5 ≤ (regionOffsetRaw lon lat).1 ∧ (regionOffsetRaw lon lat).2.2 < 0) ↔
        ¬ Xor' (5 ≤ (regionOffsetRaw lon lat).1) ((regionOffsetRaw lon lat).2.2 < 0) := by
      rcases lt_or_ge (regionOffsetRaw lon lat).2.2 0 with hy | hy <;>
        rcases Nat.lt_or_ge (regionOffsetRaw lon lat).1 5 with h5 | h5 <;>
          simp [Xor', hy, h5, not_lt.mpr, le_of_lt]
    rw [hiff]
    by_cases hx : Xor' (5 ≤ (regionOffsetRaw lon lat).1) ((regionOffsetRaw lon lat).2.2 < 0)
    · rw [hdef, if_pos hx]
      simp [hx]
      omega
    · rw [hdef, if_neg hx]
      simp [hx]

/-- Claim C9 (amended: the altitude mask keeps 19 bits, i.e. the
rescale is reduction mod `2^19`, not a mask to 18 bits): the initial
fixed-point altitude is `alt * (1/16)` offset by the midpoint `2^18`;
the vertical choice is `Upper` iff the altitude strictly exceeds
`2^18`; and each level rescales by doubling mod `2^19`. -/
theorem octree_vertical_step (a : ℕ) (alt : ℝ) :
    (octVertChoice a = .upper ↔ 2 ^ 18 < a) ∧
    octVertNext a = 2 * a % 2 ^ 19 ∧
    octAltInit alt = f64toU32 (alt * (1 / 16) + 2 ^ 18) := by
  refine ⟨?_, ?_, rfl⟩
  · unfold octVertChoice
    split_ifs with h1 <;> simp <;> omega
  · unfold octVertNext
    rw [Nat.shiftLeft_eq, Nat.and_pow_two_sub_one_eq_mod]
    omega

/-- Counterexample for C9 as stated: at altitude word `a = 2^17` the
source rescale `(a << 1) & (2^19 - 1)` yields `2^18 = 262144`, whereas
masking to 18 bits as the claim says would yield `0`. -/
theorem octree_vertical_mask_counterexample :
    octVertNext 131072 = 262144 ∧ claimVertNext 131072 = 0 ∧
    octVertNext 131072 ≠ claimVertNext 131072 := by decide

end Factor
